import Mathlib

/-!
Verification of the multi-query fan-out retrieval and aggregation pipeline
of the lab-chatbot-with-multi-query-retriever notebook.

The notebook delegates retrieval to a multi-query retriever: a user question
is expanded into paraphrased query variants, a similarity search is issued
per query, and the per-query result sets are concatenated in issue order and
deduplicated by content.  The notebook itself contributes the metadata
extraction function, the per-document indexing loop (preceded by deletion of
the target index), the document/context prompt templates, the combine step
over retrieved documents, and the final synthesis chain.
-/

/-- A document chunk: retrievable text together with string-keyed metadata. -/
structure Chunk where
  content : String
  metadata : List (String × String)
deriving DecidableEq, Repr

/-- Scan of the deduplication pass: drop every chunk whose content was
already seen, and remember the contents of the kept chunks. -/
def dedupByContentAux (seen : List String) : List Chunk → List Chunk
  | [] => []
  | c :: cs =>
    if c.content ∈ seen then dedupByContentAux seen cs
    else c :: dedupByContentAux (c.content :: seen) cs

/-- Deduplicate a list of chunks by exact content equality, keeping the
first occurrence of each content. -/
def dedupByContent (cs : List Chunk) : List Chunk :=
  dedupByContentAux [] cs

/-- Contents known to the deduplication scan after processing a list. -/
def seenAfter (seen : List String) : List Chunk → List String
  | [] => seen
  | c :: cs =>
    if c.content ∈ seen then seenAfter seen cs
    else seenAfter (c.content :: seen) cs

theorem mem_dedupAux_not_seen (cs : List Chunk) :
    ∀ seen : List String, ∀ x ∈ dedupByContentAux seen cs, x.content ∉ seen := by
  induction cs with
  | nil => intro seen x hx; simp [dedupByContentAux] at hx
  | cons c cs ih =>
    intro seen x hx
    by_cases h : c.content ∈ seen
    · simp [dedupByContentAux, h] at hx
      exact ih seen x hx
    · simp [dedupByContentAux, h] at hx
      rcases hx with rfl | hx
      · exact h
      · have := ih (c.content :: seen) x hx
        intro hmem
        exact this (List.mem_cons_of_mem _ hmem)

theorem dedupAux_contents_nodup (cs : List Chunk) :
    ∀ seen : List String, ((dedupByContentAux seen cs).map Chunk.content).Nodup := by
  induction cs with
  | nil => intro seen; simp [dedupByContentAux]
  | cons c cs ih =>
    intro seen
    by_cases h : c.content ∈ seen
    · simp [dedupByContentAux, h]; exact ih seen
    · simp [dedupByContentAux, h]
      refine ⟨?_, ih (c.content :: seen)⟩
      intro x hx hcontra
      have := mem_dedupAux_not_seen cs (c.content :: seen) x hx
      exact this (by simp [hcontra])

theorem dedupAux_sublist (cs : List Chunk) :
    ∀ seen : List String, (dedupByContentAux seen cs).Sublist cs := by
  induction cs with
  | nil => intro seen; simp [dedupByContentAux]
  | cons c cs ih =>
    intro seen
    by_cases h : c.content ∈ seen
    · simp [dedupByContentAux, h]
      exact (ih seen).trans (List.sublist_cons_self c cs)
    · simp [dedupByContentAux, h]
      exact ih (c.content :: seen)

theorem dedupAux_find_first (cs : List Chunk) :
    ∀ seen : List String, ∀ x ∈ dedupByContentAux seen cs,
      cs.find? (fun c => c.content == x.content) = some x := by
  induction cs with
  | nil => intro seen x hx; simp [dedupByContentAux] at hx
  | cons c cs ih =>
    intro seen x hx
    by_cases h : c.content ∈ seen
    · simp [dedupByContentAux, h] at hx
      have hne : (c.content == x.content) = false := by
        rw [beq_eq_false_iff_ne]
        intro hc
        exact (mem_dedupAux_not_seen cs seen x hx) (hc ▸ h)
      rw [List.find?_cons, hne]
      exact ih seen x hx
    · simp [dedupByContentAux, h] at hx
      rcases hx with rfl | hx
      · rw [List.find?_cons]
        simp
      · have hnotin := mem_dedupAux_not_seen cs (c.content :: seen) x hx
        have hne : (c.content == x.content) = false := by
          rw [beq_eq_false_iff_ne]
          intro hc
          exact hnotin (by simp [hc])
        rw [List.find?_cons, hne]
        exact ih (c.content :: seen) x hx

theorem dedupAux_complete (cs : List Chunk) :
    ∀ seen : List String, ∀ c ∈ cs, c.content ∉ seen →
      ∃ x ∈ dedupByContentAux seen cs, x.content = c.content := by
  induction cs with
  | nil => intro seen c hc; simp at hc
  | cons a cs ih =>
    intro seen c hc hnot
    rcases List.mem_cons.mp hc with rfl | hc
    · by_cases h : c.content ∈ seen
      · exact absurd h hnot
      · refine ⟨c, ?_, rfl⟩
        simp [dedupByContentAux, h]
    · by_cases h : a.content ∈ seen
      · simp only [dedupByContentAux, if_pos h]
        exact ih seen c hc hnot
      · simp only [dedupByContentAux, if_neg h]
        by_cases hac : c.content = a.content
        · exact ⟨a, List.mem_cons_self _ _, hac.symm⟩
        · have : c.content ∉ a.content :: seen := by
            intro hmem
            rcases List.mem_cons.mp hmem with h1 | h1
            · exact hac h1
            · exact hnot h1
          obtain ⟨x, hx, hxc⟩ := ih (a.content :: seen) c hc this
          exact ⟨x, List.mem_cons_of_mem _ hx, hxc⟩

theorem dedupAux_append (l1 l2 : List Chunk) :
    ∀ seen : List String,
      dedupByContentAux seen (l1 ++ l2) =
        dedupByContentAux seen l1 ++ dedupByContentAux (seenAfter seen l1) l2 := by
  induction l1 with
  | nil => intro seen; simp [dedupByContentAux, seenAfter]
  | cons c l1 ih =>
    intro seen
    by_cases h : c.content ∈ seen
    · simp only [List.cons_append, dedupByContentAux, if_pos h, seenAfter]
      exact ih seen
    · simp only [List.cons_append, dedupByContentAux, if_neg h, seenAfter]
      exact congrArg (List.cons c) (ih (c.content :: seen))

theorem mem_seenAfter_of_mem_seen (l : List Chunk) :
    ∀ seen : List String, ∀ s ∈ seen, s ∈ seenAfter seen l := by
  induction l with
  | nil => intro seen s hs; simpa [seenAfter] using hs
  | cons c l ih =>
    intro seen s hs
    by_cases h : c.content ∈ seen
    · simp only [seenAfter, if_pos h]
      exact ih seen s hs
    · simp only [seenAfter, if_neg h]
      exact ih (c.content :: seen) s (List.mem_cons_of_mem _ hs)

theorem content_mem_seenAfter (l : List Chunk) :
    ∀ seen : List String, ∀ c ∈ l, c.content ∈ seenAfter seen l := by
  induction l with
  | nil => intro seen c hc; simp at hc
  | cons a l ih =>
    intro seen c hc
    rcases List.mem_cons.mp hc with rfl | hc
    · by_cases h : c.content ∈ seen
      · simp only [seenAfter, if_pos h]
        exact mem_seenAfter_of_mem_seen l seen c.content h
      · simp only [seenAfter, if_neg h]
        exact mem_seenAfter_of_mem_seen l _ c.content (List.mem_cons_self _ _)
    · by_cases h : a.content ∈ seen
      · simp only [seenAfter, if_pos h]
        exact ih seen c hc
      · simp only [seenAfter, if_neg h]
        exact ih (a.content :: seen) c hc

theorem dedupAux_filter_seen (l : List Chunk) :
    ∀ seen : List String, ∀ S : List String, (∀ s ∈ S, s ∈ seen) →
      dedupByContentAux seen (l.filter (fun d => !(S.contains d.content))) =
        dedupByContentAux seen l := by
  induction l with
  | nil => intro seen S _; simp
  | cons c l ih =>
    intro seen S hS
    by_cases hc : S.contains c.content
    · have hmem : c.content ∈ S := by simpa using hc
      have hcs : c.content ∈ seen := hS c.content hmem
      rw [List.filter_cons_of_neg (by simp [hmem])]
      rw [show dedupByContentAux seen (c :: l) = dedupByContentAux seen l from by
        simp [dedupByContentAux, hcs]]
      exact ih seen S hS
    · have hmem : c.content ∉ S := by simpa using hc
      rw [List.filter_cons_of_pos (by simp [hmem])]
      by_cases hseen : c.content ∈ seen
      · simp only [dedupByContentAux, if_pos hseen]
        exact ih seen S hS
      · simp only [dedupByContentAux, if_neg hseen]
        rw [ih (c.content :: seen) S (fun s hs => List.mem_cons_of_mem _ (hS s hs))]

/-- Retrieval failure raised when every variant of the fan-out fails. -/
inductive RetrieveErr where
  | retrievalError
deriving DecidableEq, Repr

/-- Modelled from the spec: the fan-out set of queries issued by the
Multi-Query Retriever, the original question first, then the generated
variants in generation order (the retriever implementation itself lives in
the langchain library and is not part of this repository).  Spec 4.2 steps
1-2 and the assumption recorded in spec 9. -/
def fanoutQueries (question : String) (variants : List String) : List String :=
  question :: variants

/-- Modelled from the spec: issue the similarity search for each query of
the fan-out in order; a query whose search raises contributes the empty
result set (spec 4.2 failure semantics).  The search oracle returns none
when the underlying call raises. -/
def fanoutSearch (search : String → Option (List Chunk)) : List String → List (List Chunk)
  | [] => []
  | q :: qs =>
    (match search q with
     | some rs => rs
     | none => []) :: fanoutSearch search qs

/-- Concatenation of the per-query result sets in issue order. -/
def rawResults (search : String → Option (List Chunk)) (question : String)
    (variants : List String) : List Chunk :=
  (fanoutSearch search (fanoutQueries question variants)).flatten

/-- Modelled from the spec: the Multi-Query Retriever.  Fan out over the
original question and the variants, concatenate the per-query result sets
in issue order, deduplicate by exact content equality keeping first
occurrences; fail with RetrievalError only when every search failed
(spec 4.2). -/
def retrieve (search : String → Option (List Chunk)) (question : String)
    (variants : List String) : Except RetrieveErr (List Chunk) :=
  if (fanoutQueries question variants).all (fun q => (search q).isNone) then
    .error .retrievalError
  else
    .ok (dedupByContent (rawResults search question variants))

/-- Split a character list at newline characters, the accumulator holding
the current line reversed. -/
def splitLinesAux : List Char → List Char → List String
  | [], acc => [String.mk acc.reverse]
  | c :: rest, acc =>
    if c = '\n' then String.mk acc.reverse :: splitLinesAux rest []
    else splitLinesAux rest (c :: acc)

/-- Split a string into its lines at newline characters. -/
def splitLines (s : String) : List String :=
  splitLinesAux s.data []

/-- Remove leading and trailing whitespace characters of a string. -/
def trimStr (s : String) : String :=
  String.mk (((s.data.dropWhile Char.isWhitespace).reverse.dropWhile
    Char.isWhitespace).reverse)

/-- Modelled from the spec and from the generated-queries log recorded in
the notebook: the Query Expander parses the model response into trimmed,
non-empty lines.  The log output of the notebook shows the variants with
their leading enumeration markers still present, so no marker stripping is
performed. -/
def parseVariants (response : String) : List String :=
  ((splitLines response).map trimStr).filter (fun l => decide (l ≠ ""))

/-- Whether a string begins with an enumeration marker such as a digit
followed by a period, or a dash. -/
def hasLeadingEnumMarker (s : String) : Bool :=
  match s.data with
  | '-' :: _ => true
  | c :: d :: _ => c.isDigit && d = '.'
  | _ => false

/-- Language-model response reconstructed from the generated-queries log
recorded in the notebook output. -/
def loggedExpansionResponse : String :=
  "1. Can you provide information on the sales team at NASA?\n2. How does the sales team operate within NASA?\n3. What are the responsibilities of the NASA sales team?"

/-- Metadata lookup with the empty string as default. -/
def getMeta (m : List (String × String)) (k : String) : String :=
  (m.lookup k).getD ""

/-- Embedding of LLM_DOCUMENT_PROMPT applied to one document by
format_document: the template of the notebook with name and page_content
substituted. -/
def formatDocument (d : Chunk) : String :=
  "\n---\nSOURCE: " ++ getMeta d.metadata "name" ++ "\n" ++ d.content ++ "\n---\n"

/-- Embedding of the _combine_documents function of the notebook: format
each document with the document prompt and join with the default separator
of one blank line. -/
def combineDocuments (docs : List Chunk) : String :=
  String.intercalate "\n\n" (docs.map formatDocument)

/-- Embedding of LLM_CONTEXT_PROMPT of the notebook with context and
question substituted. -/
def contextPrompt (context question : String) : String :=
  "You are an assistant for question-answering tasks. Use the following pieces of retrieved context to answer the question. If you don\x27t know the answer, just say that you don\x27t know. Be as verbose and educational in your response as possible. \n    \n    context: " ++ context ++ "\n    Question: \"" ++ question ++ "\"\n    Answer:\n    "

/-- One language-model invocation: the completion together with the prompt
appended to the call log. -/
def callLLM (model : String → String) (log : List String) (prompt : String) :
    String × List String :=
  (model prompt, log ++ [prompt])

/-- Embedding of the synthesis chain of the notebook,
chain = _context | LLM_CONTEXT_PROMPT | llm, applied to a question after
retrieval produced the aggregated result set: build the combined context,
substitute it with the question into the context prompt, and invoke the
model once, starting from an empty call log.  The answer is the model
output verbatim. -/
def chainInvoke (model : String → String) (retrieved : List Chunk)
    (question : String) : String × List String :=
  callLLM model [] (contextPrompt (combineDocuments retrieved) question)

/-- A JSON-like value as found in a source record of the dataset. -/
inductive Jval where
  | s (v : String)
  | n (v : Int)
  | b (v : Bool)
  | null
deriving DecidableEq, Repr

/-- Coercion of a record value to a string, as the str builtin renders it. -/
def pyStr : Jval → String
  | .s v => v
  | .n v => toString v
  | .b true => "True"
  | .b false => "False"
  | .null => "None"

/-- Embedding of record.get(key, empty string): the value of the key, or
the empty string when the key is missing. -/
def recordGet (record : List (String × Jval)) (k : String) : Jval :=
  match record.lookup k with
  | some v => v
  | none => .s ""

/-- Assignment into a string-keyed dictionary: overwrite the entry when
the key is present, append it otherwise. -/
def setKey : List (String × String) → String → String → List (String × String)
  | [], k, v => [(k, v)]
  | p :: ps, k, v => if p.1 = k then (k, v) :: ps else p :: setKey ps k v

/-- Embedding of the metadata_func of the notebook: populate the metadata
dictionary with the keys name, summary, url, category and updated_at, each
bound to the string coercion of the record value, defaulting a missing key
to the empty string, and return the dictionary. -/
def metadata_func (record : List (String × Jval)) (metadata : List (String × String)) :
    List (String × String) :=
  let m1 := setKey metadata "name" (pyStr (recordGet record "name"))
  let m2 := setKey m1 "summary" (pyStr (recordGet record "summary"))
  let m3 := setKey m2 "url" (pyStr (recordGet record "url"))
  let m4 := setKey m3 "category" (pyStr (recordGet record "category"))
  setKey m4 "updated_at" (pyStr (recordGet record "updated_at"))

/-- Whether an indexing attempt succeeded. -/
def tryOk : Except String Unit → Bool
  | .ok _ => true
  | .error _ => false

/-- Rendering of a metadata dictionary used in a failure report. -/
def metaRender (m : List (String × String)) : String :=
  String.intercalate ", " (m.map (fun p => p.1 ++ "=" ++ p.2))

/-- Failure report printed by the indexing loop for one document: the
document is identified by its position and its metadata, and the error is
printed on a second line. -/
def failReport (i : Nat) (d : Chunk) (e : String) : String :=
  "❌ Failed to index doc " ++ toString i ++ ": " ++ metaRender d.metadata
    ++ "\nError: " ++ e

/-- Embedding of the per-document indexing loop of the notebook: each
document is indexed by its own store call inside a try block; a failure is
reported for that document and the loop continues with the next document.
Returns the failure reports and the successfully indexed documents, both in
loop order, starting from position i. -/
def indexLoop (tryIndex : Chunk → Except String Unit) :
    Nat → List Chunk → List String × List Chunk
  | _, [] => ([], [])
  | i, d :: ds =>
    let rest := indexLoop tryIndex (i + 1) ds
    match tryIndex d with
    | .ok _ => (rest.1, d :: rest.2)
    | .error e => (failReport i d e :: rest.1, rest.2)

/-- Embedding of es.indices.delete on the index of the store with
ignore_unavailable set: the store state becomes empty whatever it held,
and an absent index raises nothing. -/
def deleteIndex (_prior : List Chunk) : List Chunk :=
  []

/-- Embedding of the ingestion stage of the notebook: delete the existing
index, then run the per-document indexing loop over the documents of this
run; the final store holds what the loop indexed on top of the emptied
store. -/
def ingestRun (tryIndex : Chunk → Except String Unit) (prior : List Chunk)
    (docs : List Chunk) : List String × List Chunk :=
  let store0 := deleteIndex prior
  let r := indexLoop tryIndex 0 docs
  (r.1, store0 ++ r.2)

theorem indexLoop_snd (tryIndex : Chunk → Except String Unit) (docs : List Chunk) :
    ∀ i : Nat, (indexLoop tryIndex i docs).2 = docs.filter (fun d => tryOk (tryIndex d)) := by
  induction docs with
  | nil => intro i; simp [indexLoop]
  | cons d ds ih =>
    intro i
    cases h : tryIndex d with
    | ok u =>
      cases u
      simp [indexLoop, h, List.filter_cons, tryOk, ih (i + 1)]
    | error e =>
      simp [indexLoop, h, List.filter_cons, tryOk, ih (i + 1)]

theorem indexLoop_report (tryIndex : Chunk → Except String Unit) (docs : List Chunk) :
    ∀ i j : Nat, ∀ d : Chunk, ∀ e : String,
      docs.get? j = some d → tryIndex d = .error e →
      failReport (i + j) d e ∈ (indexLoop tryIndex i docs).1 := by
  induction docs with
  | nil => intro i j d e hj; simp at hj
  | cons a ds ih =>
    intro i j d e hj he
    cases j with
    | zero =>
      simp at hj
      subst hj
      simp only [indexLoop, he]
      exact List.mem_cons_self _ _
    | succ j =>
      simp only [List.get?_cons_succ] at hj
      have hmem := ih (i + 1) j d e hj he
      have harith : i + 1 + j = i + (j + 1) := by omega
      rw [harith] at hmem
      cases h : tryIndex a with
      | ok u => cases u; simpa [indexLoop, h] using hmem
      | error e2 => simp only [indexLoop, h]; exact List.mem_cons_of_mem _ hmem

theorem lookup_setKey_self (k v : String) :
    ∀ m : List (String × String), (setKey m k v).lookup k = some v := by
  intro m
  induction m with
  | nil => simp [setKey]
  | cons p ps ih =>
    by_cases h : p.1 = k
    · simp [setKey, h, List.lookup]
    · simp only [setKey, if_neg h]
      have hne : (k == p.1) = false := by
        rw [beq_eq_false_iff_ne]
        exact fun hc => h hc.symm
      simp [List.lookup, hne, ih]

theorem lookup_setKey_ne (k v k2 : String) (hne : k2 ≠ k) :
    ∀ m : List (String × String), (setKey m k v).lookup k2 = m.lookup k2 := by
  intro m
  induction m with
  | nil =>
    have hb : (k2 == k) = false := by rw [beq_eq_false_iff_ne]; exact hne
    simp [setKey, List.lookup, hb]
  | cons p ps ih =>
    by_cases h : p.1 = k
    · have hb : (k2 == k) = false := by rw [beq_eq_false_iff_ne]; exact hne
      have hb2 : (k2 == p.1) = false := by
        rw [beq_eq_false_iff_ne]
        rw [h]; exact hne
      simp [setKey, h, List.lookup, hb, hb2]
    · simp only [setKey, if_neg h]
      by_cases h2 : k2 = p.1
      · simp [List.lookup, h2]
      · have hb2 : (k2 == p.1) = false := by rw [beq_eq_false_iff_ne]; exact h2
        simp [List.lookup, hb2, ih]

theorem fanoutSearch_eq_map (search : String → Option (List Chunk)) :
    ∀ qs : List String,
      fanoutSearch search qs = qs.map (fun q => (search q).getD []) := by
  intro qs
  induction qs with
  | nil => simp [fanoutSearch]
  | cons q qs ih =>
    cases h : search q with
    | none => simp [fanoutSearch, h, ih]
    | some rs => simp [fanoutSearch, h, ih]

set_option maxRecDepth 10000

/-- C1: for every question, the Multi-Query Retriever issues a similarity
search for the original question and for each generated variant; the
fan-out set contains the original question as its first query, and the
result sets feeding aggregation start with the search of the original
question followed by the searches of the variants in generation order. -/
theorem mqr_fanout_original_first (search : String → Option (List Chunk))
    (question v : String) (variants : List String) (hv : v ∈ variants) :
    (fanoutQueries question variants).head? = some question ∧
      v ∈ fanoutQueries question variants ∧
      rawResults search question variants =
        ((search question).getD []) ++
          (variants.map (fun q => (search q).getD [])).flatten := by
  refine ⟨rfl, List.mem_cons_of_mem _ hv, ?_⟩
  unfold rawResults fanoutQueries
  rw [fanoutSearch_eq_map]
  simp

/-- Witness for C1 at a concrete question and variant list. -/
theorem mqr_fanout_original_first_witness :
    (fanoutQueries "what is the nasa sales team?" ["v1", "v2"]).head? =
        some "what is the nasa sales team?" ∧
      "v1" ∈ fanoutQueries "what is the nasa sales team?" ["v1", "v2"] ∧
      rawResults (fun _ => none) "what is the nasa sales team?" ["v1", "v2"] =
        (((fun (_ : String) => (none : Option (List Chunk))) "what is the nasa sales team?").getD []) ++
          (["v1", "v2"].map
            (fun q => (((fun (_ : String) => (none : Option (List Chunk))) q).getD []))).flatten :=
  mqr_fanout_original_first (fun _ => none) "what is the nasa sales team?" "v1"
    ["v1", "v2"] (by decide)

/-- C2: whenever retrieve returns an aggregated result set, each distinct
content occurs exactly once in it, every retrieved chunk is represented,
and the occurrence kept for a content is the first chunk of the
concatenated per-query results carrying that content, its metadata
retained. -/
theorem mqr_dedup_exactly_once (search : String → Option (List Chunk))
    (question : String) (variants : List String) (out : List Chunk)
    (h : retrieve search question variants = .ok out) :
    (out.map Chunk.content).Nodup ∧
      (∀ c ∈ rawResults search question variants, ∃ x ∈ out, x.content = c.content) ∧
      (∀ x ∈ out,
        (rawResults search question variants).find? (fun c => c.content == x.content)
          = some x) := by
  have hout : out = dedupByContent (rawResults search question variants) := by
    unfold retrieve at h
    split at h
    · cases h
    · injection h with h2
      exact h2.symm
  subst hout
  refine ⟨dedupAux_contents_nodup _ [], ?_, ?_⟩
  · intro c hc
    exact dedupAux_complete _ [] c hc (by simp)
  · intro x hx
    exact dedupAux_find_first _ [] x hx

/-- Search oracle with overlapping result sets for two queries, used to
witness deduplication. -/
def searchOverlap : String → Option (List Chunk) := fun q =>
  if q = "q" then some [⟨"ca", [("name", "A")]⟩, ⟨"cb", [("name", "B")]⟩]
  else if q = "v" then some [⟨"cb", [("name", "B2")]⟩, ⟨"cc", [("name", "C")]⟩]
  else none

/-- Witness for C2 at a concrete overlapping pair of result sets. -/
theorem mqr_dedup_exactly_once_witness :
    ((dedupByContent (rawResults searchOverlap "q" ["v"])).map Chunk.content).Nodup ∧
      (∀ c ∈ rawResults searchOverlap "q" ["v"],
        ∃ x ∈ dedupByContent (rawResults searchOverlap "q" ["v"]), x.content = c.content) ∧
      (∀ x ∈ dedupByContent (rawResults searchOverlap "q" ["v"]),
        (rawResults searchOverlap "q" ["v"]).find? (fun c => c.content == x.content)
          = some x) :=
  mqr_dedup_exactly_once searchOverlap "q" ["v"]
    (dedupByContent (rawResults searchOverlap "q" ["v"])) (by rfl)

/-- C3: aggregation preserves order with no cross-variant re-ranking: the
aggregated set is a sublist of the per-variant result sets concatenated in
issue order, aggregating further variants only appends to the aggregate of
the earlier ones, and dropping from later variants the chunks whose content
already appeared in earlier variants changes nothing. -/
theorem mqr_order_preserved (rss more : List (List Chunk)) :
    (dedupByContent rss.flatten).Sublist rss.flatten ∧
      (∃ t, dedupByContent (rss ++ more).flatten = dedupByContent rss.flatten ++ t) ∧
      dedupByContent (rss ++ more).flatten =
        dedupByContent (rss.flatten ++ more.flatten.filter
          (fun d => !((rss.flatten.map Chunk.content).contains d.content))) := by
  refine ⟨dedupAux_sublist _ [], ?_, ?_⟩
  · refine ⟨dedupByContentAux (seenAfter [] rss.flatten) more.flatten, ?_⟩
    rw [List.flatten_append]
    exact dedupAux_append rss.flatten more.flatten []
  · rw [List.flatten_append]
    unfold dedupByContent
    rw [dedupAux_append rss.flatten more.flatten [],
      dedupAux_append rss.flatten (more.flatten.filter _) []]
    rw [dedupAux_filter_seen more.flatten (seenAfter [] rss.flatten)
      (rss.flatten.map Chunk.content) ?_]
    intro s hs
    rcases List.mem_map.mp hs with ⟨c, hc, rfl⟩
    exact content_mem_seenAfter rss.flatten [] c hc

/-- C4 counterexample: on the language-model response recorded in the
notebook log, the parsed variants keep their leading enumeration markers,
so the claim that any leading enumeration marker has been stripped is
false. -/
theorem queryExpander_marker_retained_cex :
    "1. Can you provide information on the sales team at NASA?" ∈
        parseVariants loggedExpansionResponse ∧
      hasLeadingEnumMarker
        "1. Can you provide information on the sales team at NASA?" = true := by
  constructor
  · decide
  · decide

/-- C4 amended: the Query Expander parses the response into non-empty
strings, each the trimmed form of one line of the response; leading
enumeration markers are retained, not stripped. -/
theorem queryExpander_parses_trimmed_lines (response s : String)
    (hs : s ∈ parseVariants response) :
    s ≠ "" ∧ ∃ l ∈ splitLines response, s = trimStr l := by
  unfold parseVariants at hs
  have hmem := List.mem_filter.mp hs
  refine ⟨of_decide_eq_true hmem.2, ?_⟩
  rcases List.mem_map.mp hmem.1 with ⟨l, hl, rfl⟩
  exact ⟨l, hl, rfl⟩

/-- Witness for the amended C4 on the logged response. -/
theorem queryExpander_parses_trimmed_lines_witness :
    "2. How does the sales team operate within NASA?" ≠ "" ∧
      ∃ l ∈ splitLines loggedExpansionResponse,
        "2. How does the sales team operate within NASA?" = trimStr l :=
  queryExpander_parses_trimmed_lines loggedExpansionResponse
    "2. How does the sales team operate within NASA?" (by decide)

/-- C5: if at least one query of the fan-out succeeds, retrieve returns the
deduplicated union of the successful queries, a failed query contributing
the empty result set; only when every query fails does retrieve fail, with
RetrievalError. -/
theorem mqr_partial_failure_tolerance (search : String → Option (List Chunk))
    (question : String) (variants : List String) :
    (fanoutSearch search (fanoutQueries question variants) =
        (fanoutQueries question variants).map (fun q => (search q).getD [])) ∧
      ((∃ q ∈ fanoutQueries question variants, (search q).isSome = true) →
        retrieve search question variants =
          .ok (dedupByContent (rawResults search question variants))) ∧
      ((∀ q ∈ fanoutQueries question variants, search q = none) →
        retrieve search question variants = .error .retrievalError) := by
  refine ⟨fanoutSearch_eq_map search _, ?_, ?_⟩
  · rintro ⟨q, hq, hsome⟩
    have hcond : ¬ ((fanoutQueries question variants).all
        (fun q => (search q).isNone) = true) := by
      rw [List.all_eq_true]
      intro hall
      have hnone := hall q hq
      cases h : search q with
      | none => rw [h] at hsome; cases hsome
      | some rs => rw [h] at hnone; cases hnone
    unfold retrieve
    rw [if_neg hcond]
  · intro hall
    have hcond : (fanoutQueries question variants).all
        (fun q => (search q).isNone) = true := by
      rw [List.all_eq_true]
      intro q hq
      rw [hall q hq]
      rfl
    unfold retrieve
    rw [if_pos hcond]

/-- Search oracle whose first query raises and whose second succeeds, used
to witness partial-failure tolerance. -/
def searchPartial : String → Option (List Chunk) := fun q =>
  if q = "v" then some [⟨"cc", [("name", "C")]⟩] else none

/-- Witness for C5: with the original question failing and one variant
succeeding, retrieve returns the deduplicated union; with every query
failing, retrieve fails with RetrievalError. -/
theorem mqr_partial_failure_tolerance_witness :
    retrieve searchPartial "q" ["v"] =
        .ok (dedupByContent (rawResults searchPartial "q" ["v"])) ∧
      retrieve (fun _ => none) "q" ["v"] = .error .retrievalError :=
  ⟨(mqr_partial_failure_tolerance searchPartial "q" ["v"]).2.1
      ⟨"v", List.mem_cons_of_mem _ (List.mem_cons_self _ _), by decide⟩,
    (mqr_partial_failure_tolerance (fun _ => none) "q" ["v"]).2.2
      (fun _ _ => rfl)⟩

/-- C6 counterexample: at two concrete chunks named A and B, the combined
context string differs from the string the claim prescribes; the separator
region between the blocks holds four newline characters, not three. -/
theorem synthContext_claim_string_cex :
    combineDocuments [⟨"ca", [("name", "A")]⟩, ⟨"cb", [("name", "B")]⟩] ≠
      "\n---\nSOURCE: A\nca\n---\n\n\n---\nSOURCE: B\ncb\n---\n" := by
  decide

/-- C6 amended: for chunks with metadata names nA and nB, the combined
context string is the two document blocks joined by a blank-line separator;
each block both starts and ends with a newline, so four newlines stand
between the blocks. -/
theorem synthContext_format (a b : Chunk) (nA nB : String)
    (ha : getMeta a.metadata "name" = nA) (hb : getMeta b.metadata "name" = nB) :
    combineDocuments [a, b] =
      "\n---\nSOURCE: " ++ nA ++ "\n" ++ a.content ++ "\n---\n\n\n\n---\nSOURCE: "
        ++ nB ++ "\n" ++ b.content ++ "\n---\n" := by
  subst ha hb
  show formatDocument a ++ "\n\n" ++ formatDocument b = _
  unfold formatDocument
  simp only [String.append_assoc]
  rfl

/-- Witness for the amended C6 at two concrete chunks. -/
theorem synthContext_format_witness :
    combineDocuments [⟨"ca", [("name", "A")]⟩, ⟨"cb", [("name", "B")]⟩] =
      "\n---\nSOURCE: " ++ "A" ++ "\n" ++ "ca" ++ "\n---\n\n\n\n---\nSOURCE: "
        ++ "B" ++ "\n" ++ "cb" ++ "\n---\n" :=
  synthContext_format ⟨"ca", [("name", "A")]⟩ ⟨"cb", [("name", "B")]⟩ "A" "B"
    (by decide) (by decide)

/-- C7: indexing failures are handled per document: the indexed documents
are exactly those whose own store call succeeds, every document whose call
succeeds is indexed whatever happens to the others, and each failing
document yields its own failure report naming its position and metadata;
no failure aborts the batch. -/
theorem indexing_per_document (tryIndex : Chunk → Except String Unit)
    (docs : List Chunk) :
    ((indexLoop tryIndex 0 docs).2 = docs.filter (fun d => tryOk (tryIndex d))) ∧
      (∀ d ∈ docs, tryOk (tryIndex d) = true → d ∈ (indexLoop tryIndex 0 docs).2) ∧
      (∀ j : Nat, ∀ d : Chunk, ∀ e : String,
        docs.get? j = some d → tryIndex d = .error e →
        failReport j d e ∈ (indexLoop tryIndex 0 docs).1) := by
  refine ⟨indexLoop_snd tryIndex docs 0, ?_, ?_⟩
  · intro d hd hok
    rw [indexLoop_snd tryIndex docs 0]
    exact List.mem_filter.mpr ⟨hd, hok⟩
  · intro j d e hj he
    have hmem := indexLoop_report tryIndex docs 0 j d e hj he
    simpa using hmem

/-- Store stub failing on one specific document, used to witness
per-document indexing. -/
def tryIndexW : Chunk → Except String Unit := fun d =>
  if d.content = "bad" then .error "boom" else .ok ()

/-- Witness for C7: with the middle document failing, the first and last
documents are still indexed and the failing document is reported. -/
theorem indexing_per_document_witness :
    (⟨"good1", []⟩ : Chunk) ∈
        (indexLoop tryIndexW 0 [⟨"good1", []⟩, ⟨"bad", []⟩, ⟨"good2", []⟩]).2 ∧
      (⟨"good2", []⟩ : Chunk) ∈
        (indexLoop tryIndexW 0 [⟨"good1", []⟩, ⟨"bad", []⟩, ⟨"good2", []⟩]).2 ∧
      failReport 1 ⟨"bad", []⟩ "boom" ∈
        (indexLoop tryIndexW 0 [⟨"good1", []⟩, ⟨"bad", []⟩, ⟨"good2", []⟩]).1 :=
  ⟨(indexing_per_document tryIndexW _).2.1 _ (by decide) (by decide),
    (indexing_per_document tryIndexW _).2.1 _ (by decide) (by decide),
    (indexing_per_document tryIndexW _).2.2 1 _ "boom" (by decide) (by simp [tryIndexW])⟩

/-- C8: the synthesis chain invokes the language model exactly once, with
the fully substituted context prompt, and returns the model output
verbatim. -/
theorem synthesizer_single_call_verbatim (model : String → String)
    (retrieved : List Chunk) (question : String) :
    (chainInvoke model retrieved question).2 =
        [contextPrompt (combineDocuments retrieved) question] ∧
      (chainInvoke model retrieved question).1 =
        model (contextPrompt (combineDocuments retrieved) question) :=
  ⟨rfl, rfl⟩

/-- C9: metadata_func binds each of the five keys name, summary, url,
category and updated_at to the string coercion of the record value, and a
key missing from the record is bound to the empty string; the function is
total over record dictionaries. -/
theorem metadata_func_populates_five_keys (record : List (String × Jval))
    (metadata : List (String × String)) :
    ((metadata_func record metadata).lookup "name" =
        some (pyStr (recordGet record "name"))) ∧
      ((metadata_func record metadata).lookup "summary" =
        some (pyStr (recordGet record "summary"))) ∧
      ((metadata_func record metadata).lookup "url" =
        some (pyStr (recordGet record "url"))) ∧
      ((metadata_func record metadata).lookup "category" =
        some (pyStr (recordGet record "category"))) ∧
      ((metadata_func record metadata).lookup "updated_at" =
        some (pyStr (recordGet record "updated_at"))) ∧
      (∀ k ∈ ["name", "summary", "url", "category", "updated_at"],
        record.lookup k = none → (metadata_func record metadata).lookup k = some "") := by
  have hname : (metadata_func record metadata).lookup "name" =
      some (pyStr (recordGet record "name")) := by
    unfold metadata_func
    rw [lookup_setKey_ne "updated_at" _ "name" (by decide),
      lookup_setKey_ne "category" _ "name" (by decide),
      lookup_setKey_ne "url" _ "name" (by decide),
      lookup_setKey_ne "summary" _ "name" (by decide),
      lookup_setKey_self]
  have hsummary : (metadata_func record metadata).lookup "summary" =
      some (pyStr (recordGet record "summary")) := by
    unfold metadata_func
    rw [lookup_setKey_ne "updated_at" _ "summary" (by decide),
      lookup_setKey_ne "category" _ "summary" (by decide),
      lookup_setKey_ne "url" _ "summary" (by decide),
      lookup_setKey_self]
  have hurl : (metadata_func record metadata).lookup "url" =
      some (pyStr (recordGet record "url")) := by
    unfold metadata_func
    rw [lookup_setKey_ne "updated_at" _ "url" (by decide),
      lookup_setKey_ne "category" _ "url" (by decide),
      lookup_setKey_self]
  have hcategory : (metadata_func record metadata).lookup "category" =
      some (pyStr (recordGet record "category")) := by
    unfold metadata_func
    rw [lookup_setKey_ne "updated_at" _ "category" (by decide),
      lookup_setKey_self]
  have hupdated : (metadata_func record metadata).lookup "updated_at" =
      some (pyStr (recordGet record "updated_at")) := by
    unfold metadata_func
    rw [lookup_setKey_self]
  refine ⟨hname, hsummary, hurl, hcategory, hupdated, ?_⟩
  intro k hk hmiss
  have hdefault : pyStr (recordGet record k) = "" := by
    unfold recordGet
    rw [hmiss]
    rfl
  simp only [List.mem_cons, List.not_mem_nil, or_false] at hk
  rcases hk with rfl | rfl | rfl | rfl | rfl
  · rw [hname, hdefault]
  · rw [hsummary, hdefault]
  · rw [hurl, hdefault]
  · rw [hcategory, hdefault]
  · rw [hupdated, hdefault]

/-- Witness for C9 at a record holding only a name, every other key
missing. -/
theorem metadata_func_populates_five_keys_witness :
    ((metadata_func [("name", Jval.s "Doc")] []).lookup "name" =
        some (pyStr (recordGet [("name", Jval.s "Doc")] "name"))) ∧
      (metadata_func [("name", Jval.s "Doc")] []).lookup "summary" = some "" := by
  refine ⟨(metadata_func_populates_five_keys [("name", Jval.s "Doc")] []).1, ?_⟩
  exact (metadata_func_populates_five_keys [("name", Jval.s "Doc")] []).2.2.2.2.2
    "summary" (by decide) (by decide)

/-- C10: ingestion first deletes the whole index, so the final store state
is exactly the successfully indexed documents of this run, independent of
whatever the store held before; indexing is destructive, not additive. -/
theorem ingestion_deletes_then_indexes (tryIndex : Chunk → Except String Unit)
    (prior docs : List Chunk) :
    ((ingestRun tryIndex prior docs).2 = docs.filter (fun d => tryOk (tryIndex d))) ∧
      ingestRun tryIndex prior docs = ingestRun tryIndex [] docs := by
  constructor
  · show deleteIndex prior ++ (indexLoop tryIndex 0 docs).2 = _
    rw [deleteIndex, List.nil_append]
    exact indexLoop_snd tryIndex docs 0
  · rfl
